import Mathlib

/-!
Shallow embedding of the semantic chunking engine of `main.py`
(`is_heading`, `split_by_trimesters`, `split_by_sentences`, `flush_chunk`,
`process_paragraph`, `split_into_chunks`), together with proofs of the
specified properties.  Python strings are modelled as Lean `String`
(a wrapper around `List Char`), `len` as the number of characters,
`str.strip` as `pstrip`, and the two regular expressions of the source
as explicit character scanners (`scanSentGo` for `(?<=[.?!])\s+` and
`scanTrimGo` for `(\d\.?[°ºo]?\s*trimestre)\s*`).
-/

set_option maxRecDepth 40000

/-- Characters treated as whitespace by Python's `str.strip` and `\s`
(the ASCII subset, which is all the engine ever meets). -/
def pisSpace (c : Char) : Bool :=
  c == ' ' || c == '\t' || c == '\n' || c == '\r' || c == '\x0b' || c == '\x0c'

/-- Remove a maximal run of trailing whitespace. -/
def dropTrailWs : List Char → List Char
  | [] => []
  | c :: rest =>
    let r := dropTrailWs rest
    if r.isEmpty && pisSpace c then [] else c :: r

/-- Python `str.strip` on character lists. -/
def pstripList (l : List Char) : List Char :=
  dropTrailWs (l.dropWhile pisSpace)

/-- Python `str.strip`. -/
def pstrip (s : String) : String :=
  String.mk (pstripList s.data)

/-- Lower-casing used for the case-insensitive regex matches of the source
(ASCII letters plus the accented capitals appearing in the patterns). -/
def toLowerCh (c : Char) : Char :=
  if 'A' ≤ c && c ≤ 'Z' then Char.ofNat (c.toNat + 32)
  else if c == 'Á' then 'á'
  else if c == 'É' then 'é'
  else if c == 'Í' then 'í'
  else if c == 'Ó' then 'ó'
  else if c == 'Ú' then 'ú'
  else if c == 'Ñ' then 'ñ'
  else if c == 'Ü' then 'ü'
  else c

/-- Case-insensitive test that `l` starts with the (lower-case) pattern `p`. -/
def ciStartsWith : List Char → List Char → Bool
  | [], _ => true
  | _ :: _, [] => false
  | p :: ps, c :: cs => (toLowerCh c == p) && ciStartsWith ps cs

/-- The closed allow-list of section headings of `is_heading`, lower-cased.
Each entry is one alternative of the source's anchored regular expressions. -/
def headingPatterns : List String :=
  ["lengua castellana", "matemáticas", "ciencias naturales", "ciencias sociales",
   "historia", "geografía e historia", "biología", "física y química",
   "inglés", "francés", "segunda lengua", "educación física", "tecnología",
   "música", "plástica", "artes plásticas", "religión", "ética", "filosofía",
   "economía", "informática", "latín", "literatura", "valores cívicos",
   "educación en valores", "saberes básicos"]

/-- `is_heading` from `main.py`: strip the line, reject empty lines and lines
longer than 60 characters, then accept iff some allow-list pattern matches
case-insensitively from the start of the line. -/
def is_heading (line : String) : Bool :=
  let l := pstrip line
  if l = "" ∨ 60 < l.length then false
  else headingPatterns.any (fun pat => ciStartsWith pat.data l.data)

/-- Drop one leading literal dot, for the `\.?` part of the trimester marker. -/
def skipDot : List Char → List Char
  | '.' :: r => r
  | l => l

/-- Characters of the `[°ºo]` class of the trimester marker
(`re.IGNORECASE` also lets it match an upper-case o). -/
def isOrdinalCh (c : Char) : Bool :=
  c == '°' || c == 'º' || c == 'o' || c == 'O'

/-- Drop one leading ordinal character, for the `[°ºo]?` part of the marker. -/
def skipOrdinal : List Char → List Char
  | c :: r => if isOrdinalCh c then r else c :: r
  | [] => []

/-- Case-insensitively consume the (lower-case) literal `p` from the front of
the input, returning the remainder on success. -/
def ciDropLit : List Char → List Char → Option (List Char)
  | [], l => some l
  | _ :: _, [] => none
  | p :: ps, c :: cs => if toLowerCh c == p then ciDropLit ps cs else none

/-- Consume `\s*trimestre` (case-insensitively), returning the remainder. -/
def afterWsTrimestre (l : List Char) : Option (List Char) :=
  ciDropLit "trimestre".data (l.dropWhile pisSpace)

/-- Try to match the full split pattern `(\d\.?[°ºo]?\s*trimestre)\s*` at the
head of `l`.  On success, return the leading digit of the marker and the
remainder of the text after the match (trailing whitespace included in the
match, as in the source pattern).  The optional parts need no backtracking:
when the dot or the ordinal character is present, no alternative parse can
reach the literal `trimestre`. -/
def matchTrimesterMarker (l : List Char) : Option (Char × List Char) :=
  match l with
  | [] => none
  | c :: rest =>
    if c.isDigit then
      match afterWsTrimestre (skipOrdinal (skipDot rest)) with
      | some r => some (c, r.dropWhile pisSpace)
      | none => none
    else none

/-- Left-to-right scan of `re.split` with the trimester pattern: returns the
text before the first marker and the list of (marker digit, following text)
pairs.  The first argument counts characters still to skip from a marker match
already found (every part of the matcher consumes a suffix, so the remainder
after a match at `c :: rest` sits exactly `rest.length - r.length` characters
into `rest`). -/
def scanTrimGo : Nat → List Char → List Char × List (Char × List Char)
  | _, [] => ([], [])
  | Nat.succ n, _ :: rest => scanTrimGo n rest
  | 0, c :: rest =>
    match matchTrimesterMarker (c :: rest) with
    | some (d, r) =>
      let pr := scanTrimGo (rest.length - r.length) rest
      ([], (d, pr.1) :: pr.2)
    | none =>
      let pr := scanTrimGo 0 rest
      (c :: pr.1, pr.2)

/-- `split_by_trimesters` from `main.py`: split a paragraph at inline trimester
markers.  Without a marker the result is `[("General", text.strip())]`;
otherwise any stripped non-empty prefix is labelled `"General"` and every
marker starts a pair labelled `"<digit>.º trimestre"`. -/
def split_by_trimesters (text : String) : List (String × String) :=
  let pr := scanTrimGo 0 text.data
  if pr.2.isEmpty then [("General", String.mk (pstripList text.data))]
  else
    let pre := pstripList pr.1
    (if pre.isEmpty then [] else [("General", String.mk pre)]) ++
      pr.2.map (fun p => (String.mk (p.1 :: ".º trimestre".data),
                          String.mk (pstripList p.2)))

/-- Sentence-ending characters of the splitting pattern `(?<=[.?!])\s+`. -/
def isSentEnd (c : Char) : Bool :=
  c == '.' || c == '?' || c == '!'

/-- Prepend a character to the first piece of a piece list. -/
def consHead (c : Char) : List (List Char) → List (List Char)
  | [] => [[c]]
  | p :: ps => (c :: p) :: ps

/-- Scanner for `re.split(r'(?<=[.?!])\s+', text)`: `prev` is the previous
character (the look-behind), and the flag records whether the scan is inside
the whitespace run of a match.  The first returned piece continues the piece
in progress. -/
def scanSentGo : Bool → Char → List Char → List (List Char)
  | _, _, [] => [[]]
  | true, _, c :: rest =>
    if pisSpace c then scanSentGo true ' ' rest
    else consHead c (scanSentGo false c rest)
  | false, prev, c :: rest =>
    if isSentEnd prev && pisSpace c then [] :: scanSentGo true ' ' rest
    else consHead c (scanSentGo false c rest)

/-- The sentences of a text: `re.split(r'(?<=[.?!])\s+', text.strip())`. -/
def sentencesOf (text : String) : List String :=
  (scanSentGo false ' ' (pstripList text.data)).map (fun l => String.mk l)

/-- Greedy packing loop of `split_by_sentences`: accumulate sentences into
`current` while the length (with one separating space) stays within
`max_chars`, emitting the closed fragment otherwise. -/
def packLoop (max_chars : Nat) (current : String) : List String → List String
  | [] => if current = "" then [] else [current]
  | s :: rest =>
    if current.length + s.length + 1 ≤ max_chars then
      packLoop max_chars (pstrip (current ++ " " ++ s)) rest
    else
      if current = "" then packLoop max_chars s rest
      else current :: packLoop max_chars s rest

/-- `split_by_sentences` from `main.py`. -/
def split_by_sentences (text : String) (max_chars : Nat) : List String :=
  packLoop max_chars "" (sentencesOf text)

/-- Target chunk ceiling, `MAX_CHUNK_CHARS` in `main.py`. -/
def MAX_CHUNK_CHARS : Nat := 800

/-- Noise floor, `MIN_CHUNK_CHARS` in `main.py`. -/
def MIN_CHUNK_CHARS : Nat := 20

/-- One input page, the `{"text": ..., "page": ...}` records of `main.py`. -/
structure PageText where
  page : Nat
  text : String
deriving Repr, DecidableEq

/-- One output chunk of the engine (`section` is a Lean keyword, hence the
field name `sectionName`). -/
structure Chunk where
  text : String
  sectionName : String
  trimester : String
  page : Nat
deriving Repr, DecidableEq

/-- The text-enrichment step of `flush_chunk`: prefix the (already stripped)
text with `[section]` and `[trimester]` context markers unless they are
`"General"`. -/
def enrich (t sec tri : String) : String :=
  let pfx := if sec ≠ "General" then "[" ++ sec ++ "]" else ""
  let pfx2 := if tri ≠ "General" then
      (if pfx ≠ "" then pfx ++ " [" ++ tri ++ "]" else "[" ++ tri ++ "]")
    else pfx
  if pfx2 ≠ "" then pstrip (pfx2 ++ " " ++ t) else t

/-- `flush_chunk` from `main.py`: strip the candidate text, silently discard
it when shorter than `MIN_CHUNK_CHARS`, otherwise emit one enriched chunk. -/
def flush_chunk (text sec tri : String) (page : Nat) : List Chunk :=
  let t := pstrip text
  if MIN_CHUNK_CHARS ≤ t.length then [⟨enrich t sec tri, sec, tri, page⟩]
  else []

/-- The `for tri_name, tri_content in tri_parts` loop of `process_paragraph`:
update the running trimester on non-`"General"` labels and emit each
non-empty content (sentence-split first when it exceeds the ceiling).
Returns the emitted chunks and the final trimester. -/
def emitTriParts (sec : String) (page : Nat) :
    List (String × String) → String → List Chunk × String
  | [], last_tri => ([], last_tri)
  | (tri_name, tri_content) :: rest, last_tri =>
    let tri := if tri_name ≠ "General" then tri_name else last_tri
    let emitted :=
      if tri_content ≠ "" then
        if MAX_CHUNK_CHARS < tri_content.length then
          (split_by_sentences tri_content MAX_CHUNK_CHARS).flatMap
            (fun frag => flush_chunk frag sec tri page)
        else flush_chunk tri_content sec tri page
      else []
    let pr := emitTriParts sec page rest tri
    (emitted ++ pr.1, pr.2)

/-- The `len(tri_parts) == 1 and tri_parts[0][0] == "General"` test of
`process_paragraph`: `some text` when the paragraph is marker-free. -/
def isGeneralSingleton : List (String × String) → Option String
  | [(lbl, text)] => if lbl = "General" then some text else none
  | _ => none

/-- `process_paragraph` from `main.py`.  Returns the chunks appended to the
output list, the new pending buffer and the new current trimester. -/
def process_paragraph (para sec tri : String) (page : Nat)
    (current_chunk : String) : List Chunk × String × String :=
  let tri_parts := split_by_trimesters para
  match isGeneralSingleton tri_parts with
  | some text =>
    if current_chunk.length + text.length + 2 ≤ MAX_CHUNK_CHARS then
      ([], pstrip (current_chunk ++ "\n\n" ++ text), tri)
    else
      let flushed := flush_chunk current_chunk sec tri page
      if MAX_CHUNK_CHARS < text.length then
        (flushed ++ (split_by_sentences text MAX_CHUNK_CHARS).flatMap
          (fun frag => flush_chunk frag sec tri page), "", tri)
      else
        (flushed, text, tri)
  | none =>
    let flushed := flush_chunk current_chunk sec tri page
    let pr := emitTriParts sec page tri_parts tri
    (flushed ++ pr.1, "", pr.2)

/-- The accumulator state of `split_into_chunks` (output list plus the four
mutable variables of the source). -/
structure AccState where
  chunks : List Chunk
  current_section : String
  current_trimester : String
  current_chunk : String
  current_page : Nat
deriving Repr, DecidableEq

/-- Python `text.split("\n")`. -/
def splitLinesList : List Char → List (List Char)
  | [] => [[]]
  | c :: rest =>
    if c = '\n' then [] :: splitLinesList rest
    else consHead c (splitLinesList rest)

/-- The body of the `for line in lines` loop of `split_into_chunks`: one line
of one page, carrying the accumulator state and the per-page paragraph
buffer. -/
def handle_line (page_num : Nat) (st : AccState) (pb : String)
    (line : String) : AccState × String :=
  let stripped := pstrip line
  if stripped = "" then
    if pstrip pb ≠ "" then
      let pr := process_paragraph (pstrip pb) st.current_section
        st.current_trimester page_num st.current_chunk
      ({ chunks := st.chunks ++ pr.1,
         current_section := st.current_section,
         current_trimester := pr.2.2,
         current_chunk := pr.2.1,
         current_page := page_num }, "")
    else (st, pb)
  else if is_heading stripped then
    let spb :=
      if pstrip pb ≠ "" then
        let pr := process_paragraph (pstrip pb) st.current_section
          st.current_trimester page_num st.current_chunk
        ({ st with
            chunks := st.chunks ++ pr.1,
            current_chunk := pr.2.1,
            current_trimester := pr.2.2 }, "")
      else (st, pb)
    let st1 := spb.1
    ({ chunks := st1.chunks ++ flush_chunk st1.current_chunk
         st1.current_section st1.current_trimester st1.current_page,
       current_section := stripped,
       current_trimester := "General",
       current_chunk := "",
       current_page := page_num }, spb.2)
  else
    (st, pstrip (pb ++ " " ++ stripped))

/-- One page of `split_into_chunks`: run every line through `handle_line`
with a fresh paragraph buffer, then force any remaining buffered paragraph
through paragraph processing. -/
def handle_page (st : AccState) (pd : PageText) : AccState :=
  let lines := (splitLinesList pd.text.data).map (fun l => String.mk l)
  let r := lines.foldl
    (fun acc line => handle_line pd.page acc.1 acc.2 line) (st, "")
  if pstrip r.2 ≠ "" then
    let pr := process_paragraph (pstrip r.2) r.1.current_section
      r.1.current_trimester pd.page r.1.current_chunk
    { chunks := r.1.chunks ++ pr.1,
      current_section := r.1.current_section,
      current_trimester := pr.2.2,
      current_chunk := pr.2.1,
      current_page := pd.page }
  else r.1

/-- The initial accumulator state of a run. -/
def initAcc : AccState :=
  ⟨[], "General", "General", "", 1⟩

/-- The accumulator state after consuming all pages (before the final
flush). -/
def runPages (pages : List PageText) : AccState :=
  pages.foldl handle_page initAcc

/-- `split_into_chunks` from `main.py`: consume all pages, then flush the
last pending buffer. -/
def split_into_chunks (pages : List PageText) : List Chunk :=
  let st := runPages pages
  st.chunks ++ flush_chunk st.current_chunk st.current_section
    st.current_trimester st.current_page

/-- True iff the sentence splitter finds no boundary inside `s` scanned with
a neutral look-behind: such a text is a single indivisible sentence. -/
def noSplitB : Char → List Char → Bool
  | _, [] => true
  | prev, c :: rest => !(isSentEnd prev && pisSpace c) && noSplitB c rest

/-- A text that the sentence splitter cannot divide. -/
def single_sentence (s : String) : Bool :=
  noSplitB ' ' s.data

/-- The normalized shape of a trimester label: `"General"` or
`"<digit>.º trimestre"`. -/
def triShape (s : String) : Bool :=
  s == "General" ||
    (match s.data with
     | d :: rest => d.isDigit && rest == ".º trimestre".data
     | [] => false)

/-- The per-chunk invariant established for every emitted chunk: the stored
text respects the noise floor, the trimester label is well shaped, and the
stored text is the enrichment of a raw candidate that respects the size
ceiling unless it is a single indivisible oversized sentence. -/
def chunkOK (c : Chunk) : Prop :=
  MIN_CHUNK_CHARS ≤ c.text.length ∧ triShape c.trimester = true ∧
    ∃ raw : String, c.text = enrich raw c.sectionName c.trimester ∧
      (raw.length ≤ MAX_CHUNK_CHARS ∨
        (MAX_CHUNK_CHARS < raw.length ∧ single_sentence raw = true))

/-- The accumulator-state invariant maintained by every transition. -/
def stInv (st : AccState) : Prop :=
  (∀ c ∈ st.chunks, chunkOK c) ∧
    st.current_chunk.length ≤ MAX_CHUNK_CHARS ∧
    triShape st.current_trimester = true

/-- The input of the spec's Example 1 (claim C3). -/
def examplePages : List PageText :=
  [⟨1, "Matemáticas\nNúmeros enteros.\n\n1º trimestre Álgebra básica."⟩]

/-- A page whose first paragraph after a section heading starts with a
trimester marker. -/
def headingThenMarkerPages : List PageText :=
  [⟨1, "Matemáticas\n2 trimestre Contenido de algebra con longitud suficiente.\n"⟩]

/-- A 1000-character paragraph with no sentence boundary (spec Example 2). -/
def bigPara : String := String.mk (List.replicate 1000 'a')

/-- A page holding one 900-character paragraph with no sentence boundary. -/
def oversizedPages : List PageText :=
  [⟨1, String.mk (List.replicate 900 'a')⟩]

/-- A 795-character two-sentence paragraph (400 characters, a sentence
boundary, then 393 characters). -/
def twoSentL : List Char :=
  'a' :: (List.replicate 399 'a' ++ '.' :: ' ' :: (List.replicate 392 'b' ++ ['b']))

/-- The paragraph `twoSentL` as a string. -/
def twoSentPara : String := String.mk twoSentL

/-- A page carrying a heading and then the paragraph `twoSentPara`: the
emitted chunk stores 806 characters (`"[Historia] "` plus 795), exceeding
`MAX_CHUNK_CHARS` without being a single oversized sentence. -/
def prefixOverflowPages : List PageText :=
  [⟨1, String.mk ("Historia".data ++ '\n' :: twoSentL)⟩]

/-! ### Basic facts about stripping -/

theorem data_mk (l : List Char) : (String.mk l).data = l := rfl

theorem length_data (s : String) : s.length = s.data.length := rfl

theorem mk_data (s : String) : String.mk s.data = s := rfl

theorem mk_inj {a b : List Char} (h : String.mk a = String.mk b) : a = b := by
  simpa using congrArg String.data h

theorem length_dropWhileWs_le (l : List Char) :
    (l.dropWhile pisSpace).length ≤ l.length := by
  induction l with
  | nil => simp [List.dropWhile]
  | cons c rest ih =>
    by_cases h : pisSpace c
    · simp only [List.dropWhile_cons, h, if_pos]
      exact Nat.le_trans ih (Nat.le_succ _)
    · simp [List.dropWhile_cons, h]

theorem length_dropTrailWs_le (l : List Char) :
    (dropTrailWs l).length ≤ l.length := by
  induction l with
  | nil => simp [dropTrailWs]
  | cons c rest ih =>
    simp only [dropTrailWs]
    by_cases h : (dropTrailWs rest).isEmpty && pisSpace c
    · simp [h]
    · simp only [h, if_neg, Bool.not_eq_true, List.length_cons]
      exact Nat.succ_le_succ ih

theorem length_pstripList_le (l : List Char) :
    (pstripList l).length ≤ l.length :=
  Nat.le_trans (length_dropTrailWs_le _) (length_dropWhileWs_le l)

theorem length_pstrip_le (s : String) : (pstrip s).length ≤ s.length :=
  length_pstripList_le s.data

theorem dropWhileWs_cons_of_neg {c : Char} (l : List Char)
    (h : pisSpace c = false) : (c :: l).dropWhile pisSpace = c :: l := by
  simp [List.dropWhile_cons, h]

theorem dropTrailWs_append_last {c : Char} (a : List Char)
    (h : pisSpace c = false) : dropTrailWs (a ++ [c]) = a ++ [c] := by
  induction a with
  | nil => simp [dropTrailWs, h]
  | cons x a ih =>
    rw [List.cons_append, dropTrailWs, ih]
    simp

theorem dropTrailWs_append_of {a t : List Char} (h : dropTrailWs t = t)
    (hne : t ≠ []) : dropTrailWs (a ++ t) = a ++ t := by
  induction a with
  | nil => simpa using h
  | cons x a ih =>
    rw [List.cons_append, dropTrailWs, ih]
    have hef : (a ++ t).isEmpty = false := by
      cases a <;> cases t <;> simp_all
    simp [hef]

theorem dropTrailWs_idem (l : List Char) :
    dropTrailWs (dropTrailWs l) = dropTrailWs l := by
  induction l with
  | nil => simp [dropTrailWs]
  | cons c rest ih =>
    rw [dropTrailWs]
    by_cases h : (dropTrailWs rest).isEmpty && pisSpace c
    · simp [h, dropTrailWs]
    · rw [if_neg (by simpa using h)]
      rw [dropTrailWs, ih]
      rw [if_neg (by simpa using h)]

theorem dropTrailWs_prefix (l : List Char) :
    ∃ t, l = dropTrailWs l ++ t := by
  induction l with
  | nil => exact ⟨[], rfl⟩
  | cons c rest ih =>
    obtain ⟨t, ht⟩ := ih
    simp only [dropTrailWs]
    by_cases h : (dropTrailWs rest).isEmpty && pisSpace c
    · exact ⟨c :: rest, by simp [h]⟩
    · exact ⟨t, by simp [h, ← ht]⟩

theorem pstripList_shape {c d : Char} (m : List Char)
    (hc : pisSpace c = false) (hd : pisSpace d = false) :
    pstripList (c :: (m ++ [d])) = c :: (m ++ [d]) := by
  unfold pstripList
  rw [dropWhileWs_cons_of_neg _ hc]
  have : c :: (m ++ [d]) = (c :: m) ++ [d] := by simp
  rw [this, dropTrailWs_append_last _ hd]

theorem pstripList_singleton {c : Char} (hc : pisSpace c = false) :
    pstripList [c] = [c] := by
  unfold pstripList
  rw [dropWhileWs_cons_of_neg _ hc]
  simp [dropTrailWs, hc]

theorem dropWhileWs_dropTrailWs_comm (l : List Char) :
    (dropTrailWs (l.dropWhile pisSpace)).dropWhile pisSpace
      = dropTrailWs (l.dropWhile pisSpace) := by
  cases hm : l.dropWhile pisSpace with
  | nil => simp [dropTrailWs, List.dropWhile]
  | cons c rest =>
    have hc : pisSpace c = false := by
      have := List.head?_dropWhile_not pisSpace l
      rw [hm] at this
      simpa using this
    rw [dropTrailWs]
    by_cases h : (dropTrailWs rest).isEmpty && pisSpace c
    · rw [Bool.and_eq_true] at h
      rw [h.2] at hc
      exact absurd hc (by simp)
    · rw [if_neg (by simpa using h)]
      exact dropWhileWs_cons_of_neg _ hc

theorem pstripList_idem (l : List Char) :
    pstripList (pstripList l) = pstripList l := by
  unfold pstripList
  rw [dropWhileWs_dropTrailWs_comm, dropTrailWs_idem]

theorem pstrip_idem (s : String) : pstrip (pstrip s) = pstrip s := by
  unfold pstrip
  rw [data_mk, pstripList_idem]

theorem pstrip_data (s : String) : (pstrip s).data = pstripList s.data := rfl

/-! ### The sentence splitter -/

theorem noSplitB_blank {prev : Char} {l : List Char}
    (h : noSplitB prev l = true) : noSplitB ' ' l = true := by
  cases l with
  | nil => rfl
  | cons c rest =>
    rw [noSplitB, Bool.and_eq_true] at h ⊢
    exact ⟨by simp [isSentEnd], h.2⟩

theorem noSplitB_append_left {a b : List Char} :
    ∀ {prev : Char}, noSplitB prev (a ++ b) = true → noSplitB prev a = true := by
  induction a with
  | nil => intro prev _; rfl
  | cons c a ih =>
    intro prev h
    rw [List.cons_append, noSplitB, Bool.and_eq_true] at h
    rw [noSplitB, Bool.and_eq_true]
    exact ⟨h.1, ih h.2⟩

theorem noSplitB_dropWhileWs {l : List Char} (h : noSplitB ' ' l = true) :
    noSplitB ' ' (l.dropWhile pisSpace) = true := by
  induction l with
  | nil => exact h
  | cons c rest ih =>
    rw [noSplitB, Bool.and_eq_true] at h
    by_cases hc : pisSpace c
    · rw [List.dropWhile_cons, if_pos hc]
      exact ih (noSplitB_blank h.2)
    · rw [dropWhileWs_cons_of_neg _ (by simpa using hc), noSplitB,
        Bool.and_eq_true]
      exact ⟨h.1, h.2⟩

theorem noSplitB_pstripList {l : List Char} (h : noSplitB ' ' l = true) :
    noSplitB ' ' (pstripList l) = true := by
  have h1 := noSplitB_dropWhileWs h
  obtain ⟨t, ht⟩ := dropTrailWs_prefix (l.dropWhile pisSpace)
  rw [ht] at h1
  exact noSplitB_append_left h1

theorem scanSentGo_ne_nil (mode : Bool) (prev : Char) (l : List Char) :
    scanSentGo mode prev l ≠ [] := by
  induction l generalizing mode prev with
  | nil => cases mode <;> simp [scanSentGo]
  | cons c rest ih =>
    cases mode with
    | true =>
      rw [scanSentGo]
      by_cases hc : pisSpace c
      · rw [if_pos hc]; exact ih true ' '
      · rw [if_neg hc]
        cases hr : scanSentGo false c rest <;> simp [consHead]
    | false =>
      rw [scanSentGo]
      by_cases hc : isSentEnd prev && pisSpace c
      · rw [if_pos hc]; simp
      · rw [if_neg hc]
        cases hr : scanSentGo false c rest <;> simp [consHead]

theorem scanSentGo_of_noSplit {l : List Char} :
    ∀ {prev : Char}, noSplitB prev l = true → scanSentGo false prev l = [l] := by
  induction l with
  | nil => intro prev _; rfl
  | cons c rest ih =>
    intro prev h
    rw [noSplitB, Bool.and_eq_true] at h
    have hcond : (isSentEnd prev && pisSpace c) = false := by
      have := h.1
      cases hx : (isSentEnd prev && pisSpace c) with
      | false => rfl
      | true => rw [hx] at this; exact absurd this (by simp)
    rw [scanSentGo, hcond]
    simp only [Bool.false_eq_true, if_false]
    rw [ih h.2]
    rfl

theorem scanSentGo_pieces {l : List Char} :
    ∀ {mode : Bool} {prev : Char} {h : List Char} {t : List (List Char)},
      scanSentGo mode prev l = h :: t →
      noSplitB (cond mode ' ' prev) h = true ∧ ∀ p ∈ t, noSplitB ' ' p = true := by
  induction l with
  | nil =>
    intro mode prev h t heq
    cases mode <;>
      (rw [scanSentGo] at heq
       injection heq with h1 h2
       subst h1; subst h2
       exact ⟨rfl, by intro p hp; cases hp⟩)
  | cons c rest ih =>
    intro mode prev h t heq
    cases mode with
    | true =>
      rw [scanSentGo] at heq
      by_cases hc : pisSpace c
      · rw [if_pos hc] at heq
        have hres := ih heq
        exact hres
      · rw [if_neg hc] at heq
        cases hr : scanSentGo false c rest with
        | nil => exact absurd hr (scanSentGo_ne_nil false c rest)
        | cons hh tt =>
          rw [hr] at heq
          rw [consHead] at heq
          injection heq with h1 h2
          subst h1; subst h2
          obtain ⟨ph, pt⟩ := ih hr
          refine ⟨?_, pt⟩
          rw [noSplitB, Bool.and_eq_true]
          exact ⟨by simp [isSentEnd], ph⟩
    | false =>
      rw [scanSentGo] at heq
      by_cases hc : isSentEnd prev && pisSpace c
      · rw [if_pos hc] at heq
        cases hr : scanSentGo true ' ' rest with
        | nil => exact absurd hr (scanSentGo_ne_nil true ' ' rest)
        | cons hh tt =>
          rw [hr] at heq
          injection heq with h1 h2
          subst h1; subst h2
          obtain ⟨ph, pt⟩ := ih hr
          refine ⟨rfl, ?_⟩
          intro p hp
          cases hp with
          | head => exact ph
          | tail _ hp => exact pt p hp
      · rw [if_neg hc] at heq
        cases hr : scanSentGo false c rest with
        | nil => exact absurd hr (scanSentGo_ne_nil false c rest)
        | cons hh tt =>
          rw [hr] at heq
          rw [consHead] at heq
          injection heq with h1 h2
          subst h1; subst h2
          obtain ⟨ph, pt⟩ := ih hr
          refine ⟨?_, pt⟩
          rw [noSplitB, Bool.and_eq_true]
          refine ⟨?_, ph⟩
          have hcond : (isSentEnd prev && pisSpace c) = false := by
            revert hc; cases (isSentEnd prev && pisSpace c) <;> simp
          show (!(isSentEnd prev && pisSpace c)) = true
          rw [hcond]
          rfl

theorem sentencesOf_noSplit {t : String} {s : String}
    (hs : s ∈ sentencesOf t) : noSplitB ' ' s.data = true := by
  unfold sentencesOf at hs
  obtain ⟨p, hp, rfl⟩ := List.mem_map.mp hs
  cases hq : scanSentGo false ' ' (pstripList t.data) with
  | nil => exact absurd hq (scanSentGo_ne_nil _ _ _)
  | cons hh tt =>
    rw [hq] at hp
    obtain ⟨ph, pt⟩ := scanSentGo_pieces hq
    cases hp with
    | head => exact ph
    | tail _ hp => exact pt p hp

theorem length_appendS (a b : String) :
    (a ++ b).length = a.length + b.length := by
  rw [length_data, String.data_append, List.length_append]
  rfl

theorem length_append3 (a b c : String) :
    (a ++ b ++ c).length = a.length + b.length + c.length := by
  rw [length_appendS, length_appendS]

theorem packLoop_mem {m : Nat} {f : String} :
    ∀ {sents : List String} {cur : String}, f ∈ packLoop m cur sents →
      f.length ≤ m ∨ f = cur ∨ f ∈ sents := by
  intro sents
  induction sents with
  | nil =>
    intro cur hf
    rw [packLoop] at hf
    by_cases hc : cur = ""
    · rw [if_pos hc] at hf; cases hf
    · rw [if_neg hc] at hf
      cases hf with
      | head => exact Or.inr (Or.inl rfl)
      | tail _ h => cases h
  | cons s rest ih =>
    intro cur hf
    rw [packLoop] at hf
    by_cases hc : cur.length + s.length + 1 ≤ m
    · rw [if_pos hc] at hf
      rcases ih hf with h | h | h
      · exact Or.inl h
      · refine Or.inl ?_
        rw [h]
        calc (pstrip (cur ++ " " ++ s)).length
            ≤ (cur ++ " " ++ s).length := length_pstrip_le _
          _ = cur.length + 1 + s.length := length_append3 cur " " s
          _ ≤ m := by omega
      · exact Or.inr (Or.inr (List.mem_cons_of_mem _ h))
    · rw [if_neg hc] at hf
      by_cases hcur : cur = ""
      · rw [if_pos hcur] at hf
        rcases ih hf with h | h | h
        · exact Or.inl h
        · exact Or.inr (Or.inr (h ▸ List.mem_cons_self _ _))
        · exact Or.inr (Or.inr (List.mem_cons_of_mem _ h))
      · rw [if_neg hcur] at hf
        cases hf with
        | head => exact Or.inr (Or.inl rfl)
        | tail _ h =>
          rcases ih h with h | h | h
          · exact Or.inl h
          · exact Or.inr (Or.inr (h ▸ List.mem_cons_self _ _))
          · exact Or.inr (Or.inr (List.mem_cons_of_mem _ h))

theorem sbs_mem_bound {t : String} {m : Nat} {f : String}
    (hf : f ∈ split_by_sentences t m) :
    f.length ≤ m ∨ noSplitB ' ' f.data = true := by
  rcases packLoop_mem hf with h | h | h
  · exact Or.inl h
  · subst h; exact Or.inl (Nat.zero_le m)
  · exact Or.inr (sentencesOf_noSplit h)

theorem packLoop_oversized_self {m : Nat} {s : String} (hm : m < s.length) :
    ∀ rest : List String, s ∈ packLoop m s rest := by
  intro rest
  induction rest with
  | nil =>
    rw [packLoop]
    have : s ≠ "" := by
      intro h; rw [h] at hm; exact absurd hm (by simp [length_data])
    rw [if_neg this]
    exact List.mem_singleton.mpr rfl
  | cons t r ih =>
    rw [packLoop]
    have hc : ¬ (s.length + t.length + 1 ≤ m) := by omega
    rw [if_neg hc]
    have : s ≠ "" := by
      intro h; rw [h] at hm; exact absurd hm (by simp [length_data])
    rw [if_neg this]
    exact List.mem_cons_self _ _

theorem packLoop_oversized_mem {m : Nat} {s : String} (hm : m < s.length) :
    ∀ {sents : List String} {cur : String}, s ∈ sents →
      s ∈ packLoop m cur sents := by
  intro sents
  induction sents with
  | nil => intro cur h; cases h
  | cons t rest ih =>
    intro cur hs
    rw [packLoop]
    cases hs with
    | head =>
      have hc : ¬ (cur.length + s.length + 1 ≤ m) := by omega
      rw [if_neg hc]
      by_cases hcur : cur = ""
      · rw [if_pos hcur]; exact packLoop_oversized_self hm rest
      · rw [if_neg hcur]
        exact List.mem_cons_of_mem _ (packLoop_oversized_self hm rest)
    | tail _ hs =>
      by_cases hc : cur.length + t.length + 1 ≤ m
      · rw [if_pos hc]; exact ih hs
      · rw [if_neg hc]
        by_cases hcur : cur = ""
        · rw [if_pos hcur]; exact ih hs
        · rw [if_neg hcur]; exact List.mem_cons_of_mem _ (ih hs)

theorem sbs_oversized {t s : String} {m : Nat} (hs : s ∈ sentencesOf t)
    (hm : m < s.length) : s ∈ split_by_sentences t m :=
  packLoop_oversized_mem hm hs

/-! ### The trimester splitter -/

theorem matchTrimesterMarker_digit {l r : List Char} {d : Char}
    (h : matchTrimesterMarker l = some (d, r)) : d.isDigit = true := by
  cases l with
  | nil => exact absurd h (by rw [matchTrimesterMarker]; simp)
  | cons c rest =>
    rw [matchTrimesterMarker] at h
    by_cases hd : c.isDigit
    · rw [if_pos hd] at h
      cases hm : afterWsTrimestre (skipOrdinal (skipDot rest)) with
      | none => rw [hm] at h; cases h
      | some r0 =>
        rw [hm] at h
        injection h with h1
        injection h1 with h2 h3
        rw [← h2]
        exact hd
    · rw [if_neg hd] at h
      cases h

theorem scanTrimGo_digits {l : List Char} :
    ∀ {n : Nat} {d : Char} {cont : List Char},
      (d, cont) ∈ (scanTrimGo n l).2 → d.isDigit = true := by
  induction l with
  | nil =>
    intro n d cont h
    rw [scanTrimGo] at h
    cases h
  | cons c rest ih =>
    intro n d cont h
    cases n with
    | succ n =>
      rw [scanTrimGo] at h
      exact ih h
    | zero =>
      rw [scanTrimGo] at h
      cases hm : matchTrimesterMarker (c :: rest) with
      | some p =>
        obtain ⟨d0, r0⟩ := p
        rw [hm] at h
        rcases List.mem_cons.mp h with heq | hmem2
        · have hd : d = d0 := by
            have := congrArg Prod.fst heq
            simpa using this
          rw [hd]
          exact matchTrimesterMarker_digit hm
        · exact ih hmem2
      | none =>
        rw [hm] at h
        exact ih h

theorem triShape_general : triShape "General" = true := by decide

theorem triShape_digit {d : Char} (h : d.isDigit = true) :
    triShape (String.mk (d :: ".º trimestre".data)) = true := by
  unfold triShape
  rw [data_mk]
  simp [h]

theorem split_by_trimesters_labels {t lbl cont : String}
    (h : (lbl, cont) ∈ split_by_trimesters t) : triShape lbl = true := by
  unfold split_by_trimesters at h
  by_cases he : (scanTrimGo 0 t.data).2.isEmpty
  · rw [if_pos he] at h
    cases h with
    | head => exact triShape_general
    | tail _ h => cases h
  · rw [if_neg he] at h
    rcases List.mem_append.mp h with h | h
    · by_cases hp : (pstripList (scanTrimGo 0 t.data).1).isEmpty
      · rw [if_pos hp] at h; cases h
      · rw [if_neg hp] at h
        cases h with
        | head => exact triShape_general
        | tail _ h => cases h
    · obtain ⟨⟨d, c⟩, hmem, heq⟩ := List.mem_map.mp h
      have hd : d.isDigit = true := scanTrimGo_digits hmem
      have : lbl = String.mk (d :: ".º trimestre".data) := by
        have := congrArg Prod.fst heq
        simpa using this.symm
      rw [this]
      exact triShape_digit hd

/-! ### Evaluation lemmas for texts without special characters -/

theorem dropWhileWs_replicate {c : Char} (n : Nat) (h : pisSpace c = false) :
    (List.replicate n c).dropWhile pisSpace = List.replicate n c := by
  cases n with
  | zero => simp [List.dropWhile]
  | succ n =>
    rw [List.replicate_succ]
    exact dropWhileWs_cons_of_neg _ h

theorem dropTrailWs_replicate {c : Char} (n : Nat) (h : pisSpace c = false) :
    dropTrailWs (List.replicate n c) = List.replicate n c := by
  induction n with
  | zero => simp [dropTrailWs]
  | succ n ih =>
    rw [List.replicate_succ, dropTrailWs, ih]
    simp [h]

theorem pstripList_replicate {c : Char} (n : Nat) (h : pisSpace c = false) :
    pstripList (List.replicate n c) = List.replicate n c := by
  unfold pstripList
  rw [dropWhileWs_replicate n h, dropTrailWs_replicate n h]

theorem noSplitB_of_forall {l : List Char} :
    ∀ {prev : Char}, (∀ x ∈ l, pisSpace x = false) → noSplitB prev l = true := by
  induction l with
  | nil => intro prev _; rfl
  | cons c rest ih =>
    intro prev h
    rw [noSplitB, Bool.and_eq_true]
    constructor
    · have hc : pisSpace c = false := h c (List.mem_cons_self _ _)
      rw [hc, Bool.and_false]
      rfl
    · exact ih (fun x hx => h x (List.mem_cons_of_mem _ hx))

theorem scanTrimGo_no_digit {l : List Char}
    (h : ∀ x ∈ l, x.isDigit = false) : scanTrimGo 0 l = (l, []) := by
  induction l with
  | nil => rfl
  | cons c rest ih =>
    rw [scanTrimGo]
    have hc : c.isDigit = false := h c (List.mem_cons_self _ _)
    have hm : matchTrimesterMarker (c :: rest) = none := by
      rw [matchTrimesterMarker, hc]
      simp
    rw [hm]
    simp only
    rw [ih (fun x hx => h x (List.mem_cons_of_mem _ hx))]

theorem split_by_trimesters_no_digit {s : String}
    (h : ∀ x ∈ s.data, x.isDigit = false) :
    split_by_trimesters s = [("General", pstrip s)] := by
  unfold split_by_trimesters
  rw [scanTrimGo_no_digit h]
  rfl

theorem splitLinesList_no_nl {l : List Char}
    (h : ∀ x ∈ l, x ≠ '\n') : splitLinesList l = [l] := by
  induction l with
  | nil => rfl
  | cons c rest ih =>
    rw [splitLinesList, if_neg (h c (List.mem_cons_self _ _))]
    rw [ih (fun x hx => h x (List.mem_cons_of_mem _ hx))]
    rfl

/-! ### The chunk emitter -/

theorem flush_chunk_of_short {text : String} (sec tri : String) (page : Nat)
    (h : (pstrip text).length < MIN_CHUNK_CHARS) :
    flush_chunk text sec tri page = [] := by
  unfold flush_chunk
  rw [if_neg (by omega)]

theorem flush_chunk_empty (sec tri : String) (page : Nat) :
    flush_chunk "" sec tri page = [] :=
  flush_chunk_of_short sec tri page (by decide)

theorem flush_chunk_of_ge {text : String} (sec tri : String) (page : Nat)
    (h : MIN_CHUNK_CHARS ≤ (pstrip text).length) :
    flush_chunk text sec tri page
      = [⟨enrich (pstrip text) sec tri, sec, tri, page⟩] := by
  unfold flush_chunk
  rw [if_pos h]

theorem flush_chunk_mem {text sec tri : String} {page : Nat} {c : Chunk}
    (h : c ∈ flush_chunk text sec tri page) :
    MIN_CHUNK_CHARS ≤ (pstrip text).length ∧
      c = ⟨enrich (pstrip text) sec tri, sec, tri, page⟩ := by
  unfold flush_chunk at h
  by_cases hl : MIN_CHUNK_CHARS ≤ (pstrip text).length
  · rw [if_pos hl] at h
    cases h with
    | head => exact ⟨hl, rfl⟩
    | tail _ h => cases h
  · rw [if_neg hl] at h
    cases h

/-! ### The enrichment prefix -/

theorem data_ne_nil {s : String} (h : s ≠ "") : s.data ≠ [] := by
  intro hd
  exact h (by rw [← mk_data s, hd])

theorem ne_empty_of_pos {s : String} (h : 0 < s.length) : s ≠ "" := by
  intro he
  rw [he] at h
  exact absurd h (by decide)

theorem dropTrailWs_of_stripped {t : String} (ht : pstrip t = t) :
    dropTrailWs t.data = t.data := by
  have hdata : pstripList t.data = t.data := by
    have := congrArg String.data ht
    simpa [pstrip_data] using this
  calc dropTrailWs t.data = dropTrailWs (pstripList t.data) := by rw [hdata]
    _ = pstripList t.data := by
        unfold pstripList
        exact dropTrailWs_idem _
    _ = t.data := hdata

theorem sep_data (p t : String) :
    (p ++ " " ++ t).data = p.data ++ ' ' :: t.data := by
  rw [String.data_append, String.data_append]
  have hsp : (" " : String).data = [' '] := by decide
  rw [hsp]
  simp

theorem pstrip_sep_append {p t : String} {r : List Char}
    (hp : p.data = '[' :: r) (ht : pstrip t = t) (hne : t ≠ "") :
    pstrip (p ++ " " ++ t) = p ++ " " ++ t := by
  apply String.ext
  rw [pstrip_data, sep_data]
  have hdw : (p.data ++ ' ' :: t.data).dropWhile pisSpace
      = p.data ++ ' ' :: t.data := by
    rw [hp, List.cons_append]
    exact dropWhileWs_cons_of_neg _ (by decide)
  have hdt : dropTrailWs (p.data ++ ' ' :: t.data)
      = p.data ++ ' ' :: t.data := by
    have h1 : p.data ++ ' ' :: t.data = (p.data ++ [' ']) ++ t.data := by simp
    rw [h1]
    rw [dropTrailWs_append_of (dropTrailWs_of_stripped ht) (data_ne_nil hne)]
  unfold pstripList
  rw [hdw, hdt]

theorem bracket_data (x : String) :
    ("[" ++ x ++ "]").data = '[' :: (x.data ++ [']']) := by
  rw [String.data_append, String.data_append]
  have h1 : ("[" : String).data = ['['] := by decide
  have h2 : ("]" : String).data = [']'] := by decide
  rw [h1, h2]
  simp

theorem bracket_ne_empty (x : String) : ("[" ++ x ++ "]") ≠ "" := by
  intro h
  have hd := congrArg String.data h
  rw [bracket_data] at hd
  cases hd

theorem bracket2_data (x y : String) :
    ("[" ++ x ++ "]" ++ " [" ++ y ++ "]").data
      = '[' :: ((x.data ++ [']', ' ', '['] ++ y.data) ++ [']']) := by
  repeat rw [String.data_append]
  have h1 : ("[" : String).data = ['['] := by decide
  have h2 : ("]" : String).data = [']'] := by decide
  have h3 : (" [" : String).data = [' ', '['] := by decide
  rw [h1, h2, h3]
  simp

theorem bracket2_ne_empty (x y : String) :
    ("[" ++ x ++ "]" ++ " [" ++ y ++ "]") ≠ "" := by
  intro h
  have hd := congrArg String.data h
  rw [bracket2_data] at hd
  cases hd

theorem ne_self_false (s : String) : ¬ (s ≠ s) := fun h => h rfl

theorem enrich_gg (t : String) : enrich t "General" "General" = t := by
  simp only [enrich]
  rw [if_neg (ne_self_false "General")]
  rw [if_neg (ne_self_false "General")]
  rw [if_neg (ne_self_false "")]

theorem enrich_gt {tri : String} (t : String) (htr : tri ≠ "General")
    (ht : pstrip t = t) (hne : t ≠ "") :
    enrich t "General" tri = ("[" ++ tri ++ "]") ++ " " ++ t := by
  simp only [enrich]
  rw [if_neg (ne_self_false "General")]
  rw [if_pos htr]
  rw [if_neg (ne_self_false "")]
  rw [if_pos (bracket_ne_empty tri)]
  exact pstrip_sep_append (bracket_data tri) ht hne

theorem enrich_sg {sec : String} (t : String) (hs : sec ≠ "General")
    (ht : pstrip t = t) (hne : t ≠ "") :
    enrich t sec "General" = ("[" ++ sec ++ "]") ++ " " ++ t := by
  simp only [enrich]
  rw [if_pos hs]
  rw [if_neg (ne_self_false "General")]
  rw [if_pos (bracket_ne_empty sec)]
  exact pstrip_sep_append (bracket_data sec) ht hne

theorem enrich_st {sec tri : String} (t : String) (hs : sec ≠ "General")
    (htr : tri ≠ "General") (ht : pstrip t = t) (hne : t ≠ "") :
    enrich t sec tri = ("[" ++ sec ++ "]" ++ " [" ++ tri ++ "]") ++ " " ++ t := by
  simp only [enrich]
  rw [if_pos hs]
  rw [if_pos htr]
  rw [if_pos (bracket_ne_empty sec)]
  rw [if_pos (bracket2_ne_empty sec tri)]
  exact pstrip_sep_append (bracket2_data sec tri) ht hne

theorem enrich_length_ge {t : String} (sec tri : String) (ht : pstrip t = t)
    (hne : t ≠ "") : t.length ≤ (enrich t sec tri).length := by
  by_cases hs : sec = "General" <;> by_cases htr : tri = "General"
  · rw [hs, htr, enrich_gg]
  · rw [hs, enrich_gt t htr ht hne, length_append3]
    omega
  · rw [htr, enrich_sg t hs ht hne, length_append3]
    omega
  · rw [enrich_st t hs htr ht hne, length_append3]
    omega

/-! ### The accumulator invariant -/

theorem flush_spec {text sec tri : String} {page : Nat}
    (hb : text.length ≤ MAX_CHUNK_CHARS ∨ noSplitB ' ' text.data = true)
    (htri : triShape tri = true) :
    ∀ c ∈ flush_chunk text sec tri page, chunkOK c := by
  intro c hc
  obtain ⟨hmin, hceq⟩ := flush_chunk_mem hc
  subst hceq
  have hstr : pstrip (pstrip text) = pstrip text := pstrip_idem text
  have hpos : (0 : Nat) < (pstrip text).length :=
    Nat.lt_of_lt_of_le (by decide) hmin
  have hne : pstrip text ≠ "" := ne_empty_of_pos hpos
  refine ⟨?_, htri, ⟨pstrip text, rfl, ?_⟩⟩
  · exact Nat.le_trans hmin (enrich_length_ge sec tri hstr hne)
  · rcases hb with hb | hb
    · exact Or.inl (Nat.le_trans (length_pstrip_le text) hb)
    · by_cases hlen : (pstrip text).length ≤ MAX_CHUNK_CHARS
      · exact Or.inl hlen
      · refine Or.inr ⟨Nat.lt_of_not_le hlen, ?_⟩
        show noSplitB ' ' (pstrip text).data = true
        rw [pstrip_data]
        exact noSplitB_pstripList hb

theorem flush_frags_spec {t sec tri : String} {page : Nat}
    (htri : triShape tri = true) :
    ∀ c ∈ (split_by_sentences t MAX_CHUNK_CHARS).flatMap
        (fun frag => flush_chunk frag sec tri page), chunkOK c := by
  intro c hc
  obtain ⟨frag, hfrag, hcf⟩ := List.mem_flatMap.mp hc
  exact flush_spec (sbs_mem_bound hfrag) htri c hcf

theorem emitTriParts_spec {sec : String} {page : Nat} :
    ∀ {parts : List (String × String)} {tri : String}, triShape tri = true →
      (∀ p ∈ parts, triShape p.1 = true) →
      (∀ c ∈ (emitTriParts sec page parts tri).1, chunkOK c) ∧
        triShape (emitTriParts sec page parts tri).2 = true := by
  intro parts
  induction parts with
  | nil =>
    intro tri htri _
    exact ⟨fun c hc => absurd hc (by simp [emitTriParts]), htri⟩
  | cons p rest ih =>
    intro tri htri hlbl
    obtain ⟨tri_name, tri_content⟩ := p
    have htri2 : triShape (if tri_name ≠ "General" then tri_name else tri)
        = true := by
      by_cases hn : tri_name = "General"
      · rw [if_neg (fun hc => hc hn)]
        exact htri
      · rw [if_pos hn]
        exact hlbl _ (List.mem_cons_self _ _)
    have hrest := ih htri2 (fun q hq => hlbl q (List.mem_cons_of_mem _ hq))
    rw [emitTriParts]
    refine ⟨?_, hrest.2⟩
    intro c hc
    rcases List.mem_append.mp hc with hc | hc
    · by_cases hct : tri_content ≠ ""
      · rw [if_pos hct] at hc
        by_cases hover : MAX_CHUNK_CHARS < tri_content.length
        · rw [if_pos hover] at hc
          exact flush_frags_spec htri2 c hc
        · rw [if_neg hover] at hc
          exact flush_spec (Or.inl (Nat.le_of_not_lt hover)) htri2 c hc
      · rw [if_neg hct] at hc
        cases hc
    · exact hrest.1 c hc

theorem pp_general {para sec tri text : String} {page : Nat} {cc : String}
    (hg : isGeneralSingleton (split_by_trimesters para) = some text) :
    process_paragraph para sec tri page cc =
      (if cc.length + text.length + 2 ≤ MAX_CHUNK_CHARS then
        ([], pstrip (cc ++ "\n\n" ++ text), tri)
      else if MAX_CHUNK_CHARS < text.length then
        (flush_chunk cc sec tri page
          ++ (split_by_sentences text MAX_CHUNK_CHARS).flatMap
            (fun frag => flush_chunk frag sec tri page), "", tri)
      else (flush_chunk cc sec tri page, text, tri)) := by
  simp only [process_paragraph]
  rw [hg]

theorem pp_none {para sec tri : String} {page : Nat} {cc : String}
    (hg : isGeneralSingleton (split_by_trimesters para) = none) :
    process_paragraph para sec tri page cc =
      (flush_chunk cc sec tri page
          ++ (emitTriParts sec page (split_by_trimesters para) tri).1, "",
        (emitTriParts sec page (split_by_trimesters para) tri).2) := by
  simp only [process_paragraph]
  rw [hg]

theorem pp_spec {para sec tri : String} {page : Nat} {cc : String}
    (hcc : cc.length ≤ MAX_CHUNK_CHARS) (htri : triShape tri = true) :
    (∀ c ∈ (process_paragraph para sec tri page cc).1, chunkOK c) ∧
      (process_paragraph para sec tri page cc).2.1.length ≤ MAX_CHUNK_CHARS ∧
      triShape (process_paragraph para sec tri page cc).2.2 = true := by
  cases hg : isGeneralSingleton (split_by_trimesters para) with
  | some text =>
    rw [pp_general hg]
    by_cases hfit : cc.length + text.length + 2 ≤ MAX_CHUNK_CHARS
    · rw [if_pos hfit]
      refine ⟨fun c hc => absurd hc (by simp), ?_, htri⟩
      calc (pstrip (cc ++ "\n\n" ++ text)).length
          ≤ (cc ++ "\n\n" ++ text).length := length_pstrip_le _
        _ = cc.length + 2 + text.length := by
            rw [length_append3]
            rfl
        _ ≤ MAX_CHUNK_CHARS := by omega
    · rw [if_neg hfit]
      by_cases hover : MAX_CHUNK_CHARS < text.length
      · rw [if_pos hover]
        refine ⟨?_, by simp [length_data], htri⟩
        intro c hc
        rcases List.mem_append.mp hc with hc | hc
        · exact flush_spec (Or.inl hcc) htri c hc
        · exact flush_frags_spec htri c hc
      · rw [if_neg hover]
        exact ⟨fun c hc => flush_spec (Or.inl hcc) htri c hc,
          Nat.le_of_not_lt hover, htri⟩
  | none =>
    rw [pp_none hg]
    have hlbl : ∀ q ∈ split_by_trimesters para, triShape q.1 = true := by
      intro q hq
      obtain ⟨lbl, cont⟩ := q
      exact split_by_trimesters_labels hq
    have hemit := @emitTriParts_spec sec page (split_by_trimesters para)
      tri htri hlbl
    refine ⟨?_, by simp [length_data], hemit.2⟩
    intro c hc
    rcases List.mem_append.mp hc with hc | hc
    · exact flush_spec (Or.inl hcc) htri c hc
    · exact hemit.1 c hc

theorem chunks_append_ok {l₁ l₂ : List Chunk} (h₁ : ∀ c ∈ l₁, chunkOK c)
    (h₂ : ∀ c ∈ l₂, chunkOK c) : ∀ c ∈ l₁ ++ l₂, chunkOK c := by
  intro c hc
  rcases List.mem_append.mp hc with hc | hc
  · exact h₁ c hc
  · exact h₂ c hc

theorem empty_length_le : ("" : String).length ≤ MAX_CHUNK_CHARS := by decide

theorem stInv_init : stInv initAcc :=
  ⟨fun c hc => absurd hc (by simp [initAcc]), by decide, by decide⟩

theorem handle_line_spec (page : Nat) (st : AccState) (pb line : String)
    (h : stInv st) : stInv (handle_line page st pb line).1 := by
  obtain ⟨hchunks, hcc, htri⟩ := h
  simp only [handle_line]
  by_cases h1 : pstrip line = ""
  · rw [if_pos h1]
    by_cases h2 : pstrip pb ≠ ""
    · rw [if_pos h2]
      have hpp := @pp_spec (pstrip pb) st.current_section st.current_trimester
        page st.current_chunk hcc htri
      exact ⟨chunks_append_ok hchunks hpp.1, hpp.2.1, hpp.2.2⟩
    · rw [if_neg h2]
      exact ⟨hchunks, hcc, htri⟩
  · rw [if_neg h1]
    by_cases h3 : is_heading (pstrip line) = true
    · rw [if_pos h3]
      by_cases h2 : pstrip pb ≠ ""
      · rw [if_pos h2]
        have hpp := @pp_spec (pstrip pb) st.current_section st.current_trimester
          page st.current_chunk hcc htri
        refine ⟨?_, empty_length_le, triShape_general⟩
        exact chunks_append_ok (chunks_append_ok hchunks hpp.1)
          (flush_spec (Or.inl hpp.2.1) hpp.2.2)
      · rw [if_neg h2]
        refine ⟨?_, empty_length_le, triShape_general⟩
        exact chunks_append_ok hchunks (flush_spec (Or.inl hcc) htri)
    · rw [if_neg h3]
      exact ⟨hchunks, hcc, htri⟩

theorem foldl_lines_inv (pg : Nat) (lines : List String) :
    ∀ acc : AccState × String, stInv acc.1 →
      stInv (lines.foldl
        (fun acc line => handle_line pg acc.1 acc.2 line) acc).1 := by
  induction lines with
  | nil => intro acc h; exact h
  | cons l rest ih =>
    intro acc h
    rw [List.foldl_cons]
    exact ih _ (handle_line_spec pg acc.1 acc.2 l h)

theorem handle_page_spec (st : AccState) (pd : PageText) (h : stInv st) :
    stInv (handle_page st pd) := by
  simp only [handle_page]
  have hr := foldl_lines_inv pd.page
    ((splitLinesList pd.text.data).map (fun l => String.mk l)) (st, "") h
  set r := ((splitLinesList pd.text.data).map (fun l => String.mk l)).foldl
    (fun acc line => handle_line pd.page acc.1 acc.2 line) (st, "") with hrdef
  obtain ⟨hchunks, hcc, htri⟩ := hr
  by_cases h2 : pstrip r.2 ≠ ""
  · rw [if_pos h2]
    have hpp := @pp_spec (pstrip r.2) r.1.current_section r.1.current_trimester
      pd.page r.1.current_chunk hcc htri
    exact ⟨chunks_append_ok hchunks hpp.1, hpp.2.1, hpp.2.2⟩
  · rw [if_neg h2]
    exact ⟨hchunks, hcc, htri⟩

theorem foldl_pages_inv (pages : List PageText) :
    ∀ st : AccState, stInv st → stInv (pages.foldl handle_page st) := by
  induction pages with
  | nil => intro st h; exact h
  | cons p rest ih =>
    intro st h
    rw [List.foldl_cons]
    exact ih _ (handle_page_spec st p h)

theorem runPages_inv (pages : List PageText) : stInv (runPages pages) :=
  foldl_pages_inv pages initAcc stInv_init

theorem split_into_chunks_ok (pages : List PageText) :
    ∀ c ∈ split_into_chunks pages, chunkOK c := by
  obtain ⟨hchunks, hcc, htri⟩ := runPages_inv pages
  simp only [split_into_chunks]
  exact chunks_append_ok hchunks (flush_spec (Or.inl hcc) htri)

/-! ### Evaluation helpers for long replicated texts -/

theorem repl_length (n : Nat) (c : Char) :
    (String.mk (List.replicate n c)).length = n := by
  rw [length_data, data_mk, List.length_replicate]

theorem ne_empty_of_data {s : String} (h : s.data ≠ []) : s ≠ "" := by
  intro he
  rw [he] at h
  exact h rfl

theorem repl_ne_empty (n : Nat) (c : Char) (h : 0 < n) :
    String.mk (List.replicate n c) ≠ "" := by
  apply ne_empty_of_data
  rw [data_mk]
  cases n with
  | zero => exact absurd h (by decide)
  | succ n => simp [List.replicate_succ]

theorem pstrip_repl {c : Char} (n : Nat) (h : pisSpace c = false) :
    pstrip (String.mk (List.replicate n c)) = String.mk (List.replicate n c) := by
  apply String.ext
  rw [pstrip_data, data_mk, pstripList_replicate n h]

theorem repl_no_digit {c : Char} (n : Nat) (h : c.isDigit = false) :
    ∀ x ∈ (String.mk (List.replicate n c)).data, x.isDigit = false := by
  intro x hx
  rw [data_mk] at hx
  rw [List.eq_of_mem_replicate hx]
  exact h

theorem repl_noSplit {c : Char} (n : Nat) (h : pisSpace c = false) :
    noSplitB ' ' (String.mk (List.replicate n c)).data = true := by
  rw [data_mk]
  apply noSplitB_of_forall
  intro x hx
  rw [List.eq_of_mem_replicate hx]
  exact h

theorem is_heading_long {line : String} (h : 60 < (pstrip line).length) :
    is_heading line = false := by
  simp only [is_heading]
  rw [if_pos (Or.inr h)]

theorem pstripList_cons_ws {c : Char} (l : List Char) (h : pisSpace c = true) :
    pstripList (c :: l) = pstripList l := by
  unfold pstripList
  rw [List.dropWhile_cons, if_pos h]

theorem sbs_single {s : String} {m : Nat} (hst : pstrip s = s)
    (hns : noSplitB ' ' s.data = true) (hm : m < s.length) :
    split_by_sentences s m = [s] := by
  have hds : pstripList s.data = s.data := by
    have := congrArg String.data hst
    rw [pstrip_data] at this
    exact this
  have hsent : sentencesOf s = [s] := by
    unfold sentencesOf
    rw [hds, scanSentGo_of_noSplit hns]
    rw [List.map_cons, List.map_nil, mk_data]
  unfold split_by_sentences
  rw [hsent, packLoop]
  rw [if_neg (by
    have h0 : ("" : String).length = 0 := rfl
    omega)]
  rw [if_pos rfl, packLoop]
  rw [if_neg (ne_empty_of_pos (Nat.lt_of_le_of_lt (Nat.zero_le m) hm))]

theorem handle_line_content {page : Nat} {st : AccState} {pb line : String}
    (h1 : pstrip line ≠ "") (h2 : is_heading (pstrip line) = false) :
    handle_line page st pb line = (st, pstrip (pb ++ " " ++ pstrip line)) := by
  simp only [handle_line]
  rw [if_neg h1, if_neg (by rw [h2]; simp)]

theorem handle_line_heading_nopb {page : Nat} {st : AccState} {line : String}
    (h1 : pstrip line ≠ "") (h2 : is_heading (pstrip line) = true) :
    handle_line page st "" line =
      ({ chunks := st.chunks ++ flush_chunk st.current_chunk
           st.current_section st.current_trimester st.current_page,
         current_section := pstrip line,
         current_trimester := "General",
         current_chunk := "",
         current_page := page }, "") := by
  simp only [handle_line]
  rw [if_neg h1, if_pos h2, if_neg (fun hc : pstrip "" ≠ "" => hc rfl)]

theorem pstrip_space_left {s : String} (hst : pstrip s = s) :
    pstrip ("" ++ " " ++ s) = s := by
  apply String.ext
  rw [pstrip_data, sep_data]
  have hd : ("" : String).data = [] := rfl
  rw [hd, List.nil_append, pstripList_cons_ws _ (by decide)]
  have := congrArg String.data hst
  rw [pstrip_data] at this
  exact this

theorem single_big_line_eval {s : String} (hst : pstrip s = s)
    (hns : noSplitB ' ' s.data = true) (hnl : ∀ x ∈ s.data, x ≠ '\n')
    (hnd : ∀ x ∈ s.data, x.isDigit = false)
    (hlen : MAX_CHUNK_CHARS < s.length) (hhead : is_heading s = false) :
    split_into_chunks [⟨1, s⟩] = [⟨s, "General", "General", 1⟩] := by
  have hsne : s ≠ "" :=
    ne_empty_of_pos (Nat.lt_of_le_of_lt (Nat.zero_le _) hlen)
  have h0 : ("" : String).length = 0 := rfl
  have hmin : MIN_CHUNK_CHARS ≤ (pstrip s).length := by
    rw [hst]
    have : MAX_CHUNK_CHARS = 800 := rfl
    have h2 : MIN_CHUNK_CHARS = 20 := rfl
    omega
  have hlines : (splitLinesList s.data).map (fun l => String.mk l) = [s] := by
    rw [splitLinesList_no_nl hnl, List.map_cons, List.map_nil, mk_data]
  have hfold : handle_line 1 initAcc "" s = (initAcc, s) := by
    rw [handle_line_content (by rw [hst]; exact hsne) (by rw [hst]; exact hhead)]
    rw [hst, pstrip_space_left hst]
  have hgs : isGeneralSingleton (split_by_trimesters s) = some s := by
    rw [split_by_trimesters_no_digit hnd, hst]
    simp [isGeneralSingleton]
  have hpp : process_paragraph s "General" "General" 1 ""
      = ([⟨s, "General", "General", 1⟩], "", "General") := by
    rw [pp_general hgs]
    rw [if_neg (by omega)]
    rw [if_pos hlen]
    rw [flush_chunk_empty, sbs_single hst hns hlen]
    rw [List.flatMap_cons, List.flatMap_nil]
    rw [flush_chunk_of_ge _ _ _ hmin, hst, enrich_gg]
    simp
  have hpage : handle_page initAcc ⟨1, s⟩
      = ⟨[⟨s, "General", "General", 1⟩], "General", "General", "", 1⟩ := by
    simp only [handle_page, hlines, List.foldl_cons, List.foldl_nil]
    rw [hfold]
    simp only [initAcc]
    rw [hst]
    rw [if_pos hsne]
    rw [hpp]
    simp
  simp only [split_into_chunks, runPages, List.foldl_cons, List.foldl_nil]
  rw [hpage]
  simp only []
  rw [flush_chunk_empty]
  simp

theorem oversized_pages_eval :
    split_into_chunks oversizedPages
      = [⟨String.mk (List.replicate 900 'a'), "General", "General", 1⟩] := by
  apply single_big_line_eval
  · exact @pstrip_repl 'a' 900 (by decide)
  · exact @repl_noSplit 'a' 900 (by decide)
  · intro x hx
    rw [data_mk] at hx
    rw [List.eq_of_mem_replicate hx]
    decide
  · exact @repl_no_digit 'a' 900 (by decide)
  · rw [repl_length]
    decide
  · apply is_heading_long
    rw [@pstrip_repl 'a' 900 (by decide), repl_length]
    decide

theorem splitLinesList_append_nl {a b : List Char}
    (h : ∀ x ∈ a, x ≠ '\n') :
    splitLinesList (a ++ '\n' :: b) = a :: splitLinesList b := by
  induction a with
  | nil =>
    rw [List.nil_append, splitLinesList, if_pos rfl]
  | cons c a ih =>
    rw [List.cons_append, splitLinesList,
      if_neg (h c (List.mem_cons_self _ _))]
    rw [ih (fun x hx => h x (List.mem_cons_of_mem _ hx))]
    rfl

theorem noSplit_false_mid (l₁ l₂ : List Char) :
    ∀ prev : Char, noSplitB prev (l₁ ++ '.' :: ' ' :: l₂) = false := by
  induction l₁ with
  | nil =>
    intro prev
    rw [List.nil_append, noSplitB, noSplitB]
    simp [isSentEnd, pisSpace]
  | cons c l₁ ih =>
    intro prev
    rw [List.cons_append, noSplitB, ih c]
    simp

theorem twoSentL_shape :
    twoSentL = 'a' :: ((List.replicate 399 'a'
      ++ '.' :: ' ' :: List.replicate 392 'b') ++ ['b']) := by
  unfold twoSentL
  rw [List.append_assoc, List.cons_append, List.cons_append]

theorem twoSentL_pstrip : pstripList twoSentL = twoSentL := by
  rw [twoSentL_shape]
  exact pstripList_shape _ (by decide) (by decide)

theorem twoSentPara_pstrip : pstrip twoSentPara = twoSentPara := by
  apply String.ext
  rw [pstrip_data]
  show pstripList twoSentL = twoSentL
  exact twoSentL_pstrip

theorem twoSentL_mem {x : Char} (hx : x ∈ twoSentL) :
    x = 'a' ∨ x = '.' ∨ x = ' ' ∨ x = 'b' := by
  unfold twoSentL at hx
  rcases List.mem_cons.mp hx with h | hx
  · exact Or.inl h
  · rcases List.mem_append.mp hx with hx | hx
    · exact Or.inl (List.eq_of_mem_replicate hx)
    · rcases List.mem_cons.mp hx with h | hx
      · exact Or.inr (Or.inl h)
      · rcases List.mem_cons.mp hx with h | hx
        · exact Or.inr (Or.inr (Or.inl h))
        · rcases List.mem_append.mp hx with hx | hx
          · exact Or.inr (Or.inr (Or.inr (List.eq_of_mem_replicate hx)))
          · rcases List.mem_cons.mp hx with h | hx
            · exact Or.inr (Or.inr (Or.inr h))
            · cases hx

theorem twoSentL_length : twoSentL.length = 795 := by
  unfold twoSentL
  simp only [List.length_cons, List.length_append, List.length_replicate,
    List.length_nil]

theorem twoSentPara_length : twoSentPara.length = 795 := by
  rw [length_data]
  exact twoSentL_length

theorem twoSentPara_ne_empty : twoSentPara ≠ "" :=
  ne_empty_of_pos (by rw [twoSentPara_length]; decide)

theorem handle_page_of (pd : PageText) {st st1 : AccState} {pb : String}
    (hfold : ((splitLinesList pd.text.data).map (fun l => String.mk l)).foldl
        (fun acc line => handle_line pd.page acc.1 acc.2 line) (st, "")
      = (st1, pb)) :
    handle_page st pd =
      (if pstrip pb ≠ "" then
        { chunks := st1.chunks ++ (process_paragraph (pstrip pb)
            st1.current_section st1.current_trimester pd.page
            st1.current_chunk).1,
          current_section := st1.current_section,
          current_trimester := (process_paragraph (pstrip pb)
            st1.current_section st1.current_trimester pd.page
            st1.current_chunk).2.2,
          current_chunk := (process_paragraph (pstrip pb) st1.current_section
            st1.current_trimester pd.page st1.current_chunk).2.1,
          current_page := pd.page }
      else st1) := by
  simp only [handle_page]
  rw [hfold]

theorem runPages_single (pd : PageText) :
    runPages [pd] = handle_page initAcc pd := by
  simp only [runPages, List.foldl_cons, List.foldl_nil]

theorem split_into_chunks_of {pages : List PageText} {st : AccState}
    (h : runPages pages = st) :
    split_into_chunks pages = st.chunks ++ flush_chunk st.current_chunk
      st.current_section st.current_trimester st.current_page := by
  simp only [split_into_chunks]
  rw [h]

theorem pstrip_nl2_left {s : String} (hst : pstrip s = s) :
    pstrip ("" ++ "\n\n" ++ s) = s := by
  apply String.ext
  rw [pstrip_data]
  have hd : ("" ++ "\n\n" ++ s).data = '\n' :: '\n' :: s.data := by
    rw [String.data_append, String.data_append]
    have h1 : ("" : String).data = [] := rfl
    have h2 : ("\n\n" : String).data = ['\n', '\n'] := by decide
    rw [h1, h2]
    rfl
  rw [hd, pstripList_cons_ws _ (by decide), pstripList_cons_ws _ (by decide)]
  have := congrArg String.data hst
  rw [pstrip_data] at this
  exact this

set_option maxRecDepth 4000 in
theorem prefix_overflow_eval :
    split_into_chunks prefixOverflowPages
      = [⟨("[" ++ "Historia" ++ "]") ++ " " ++ twoSentPara,
          "Historia", "General", 1⟩] := by
  have hnl2 : ∀ x ∈ twoSentL, x ≠ '\n' := by
    intro x hx
    rcases twoSentL_mem hx with h | h | h | h <;> (subst h; decide)
  have hnd2 : ∀ x ∈ twoSentPara.data, x.isDigit = false := by
    intro x hx
    rw [data_mk] at hx  -- hack: twoSentPara.data = twoSentL
    rcases twoSentL_mem hx with h | h | h | h <;> (subst h; decide)
  have hlines : (splitLinesList ("Historia".data ++ '\n' :: twoSentL)).map
      (fun l => String.mk l) = ["Historia", twoSentPara] := by
    rw [splitLinesList_append_nl (by decide), splitLinesList_no_nl hnl2]
    rw [List.map_cons, List.map_cons, List.map_nil, mk_data]
    rfl
  have hline1 : handle_line 1 initAcc "" "Historia"
      = (⟨[], "Historia", "General", "", 1⟩, "") := by
    rw [handle_line_heading_nopb (by decide) (by decide)]
    simp only [initAcc]
    rw [flush_chunk_empty]
    have hh : pstrip "Historia" = "Historia" := by decide
    rw [hh]
    rfl
  have hline2 : handle_line 1 (⟨[], "Historia", "General", "", 1⟩ : AccState)
      "" twoSentPara = (⟨[], "Historia", "General", "", 1⟩, twoSentPara) := by
    rw [handle_line_content
      (by rw [twoSentPara_pstrip]; exact twoSentPara_ne_empty)
      (by rw [twoSentPara_pstrip]
          exact is_heading_long
            (by rw [twoSentPara_pstrip, twoSentPara_length]; decide))]
    rw [twoSentPara_pstrip, pstrip_space_left twoSentPara_pstrip]
  have hgs : isGeneralSingleton (split_by_trimesters twoSentPara)
      = some twoSentPara := by
    rw [split_by_trimesters_no_digit hnd2, twoSentPara_pstrip]
    simp [isGeneralSingleton]
  have hpp : process_paragraph twoSentPara "Historia" "General" 1 ""
      = ([], twoSentPara, "General") := by
    rw [pp_general hgs]
    rw [if_pos (by
      have h0 : ("" : String).length = 0 := rfl
      have hl := twoSentPara_length
      have hM : MAX_CHUNK_CHARS = 800 := rfl
      omega)]
    rw [pstrip_nl2_left twoSentPara_pstrip]
  have hfold : ((splitLinesList ("Historia".data ++ '\n' :: twoSentL)).map
      (fun l => String.mk l)).foldl
        (fun acc line => handle_line 1 acc.1 acc.2 line) (initAcc, "")
      = ((⟨[], "Historia", "General", "", 1⟩ : AccState), twoSentPara) := by
    rw [hlines]
    rw [List.foldl_cons]
    rw [show handle_line 1 (initAcc, "").1 (initAcc, "").2 "Historia"
      = ((⟨[], "Historia", "General", "", 1⟩ : AccState), "") from hline1]
    rw [List.foldl_cons]
    rw [show handle_line 1
        ((⟨[], "Historia", "General", "", 1⟩ : AccState), "").1
        ((⟨[], "Historia", "General", "", 1⟩ : AccState), "").2 twoSentPara
      = ((⟨[], "Historia", "General", "", 1⟩ : AccState), twoSentPara)
      from hline2]
    rw [List.foldl_nil]
  have hpage : handle_page initAcc
      ⟨1, String.mk ("Historia".data ++ '\n' :: twoSentL)⟩
      = ⟨[], "Historia", "General", twoSentPara, 1⟩ := by
    rw [handle_page_of ⟨1, String.mk ("Historia".data ++ '\n' :: twoSentL)⟩
      hfold]
    rw [if_pos (by rw [twoSentPara_pstrip]; exact twoSentPara_ne_empty)]
    rw [show pstrip twoSentPara = twoSentPara from twoSentPara_pstrip]
    rw [show (process_paragraph twoSentPara
        (⟨[], "Historia", "General", "", 1⟩ : AccState).current_section
        (⟨[], "Historia", "General", "", 1⟩ : AccState).current_trimester 1
        (⟨[], "Historia", "General", "", 1⟩ : AccState).current_chunk)
      = ([], twoSentPara, "General") from hpp]
    rfl
  have hmin : MIN_CHUNK_CHARS ≤ (pstrip twoSentPara).length := by
    rw [twoSentPara_pstrip, twoSentPara_length]
    decide
  have hrun : runPages prefixOverflowPages
      = ⟨[], "Historia", "General", twoSentPara, 1⟩ := by
    show runPages [⟨1, String.mk ("Historia".data ++ '\n' :: twoSentL)⟩] = _
    rw [runPages_single, hpage]
  rw [split_into_chunks_of hrun]
  rw [show flush_chunk
      (⟨[], "Historia", "General", twoSentPara, 1⟩ : AccState).current_chunk
      (⟨[], "Historia", "General", twoSentPara, 1⟩ : AccState).current_section
      (⟨[], "Historia", "General", twoSentPara, 1⟩ : AccState).current_trimester
      (⟨[], "Historia", "General", twoSentPara, 1⟩ : AccState).current_page
    = [⟨enrich (pstrip twoSentPara) "Historia" "General",
        "Historia", "General", 1⟩] from flush_chunk_of_ge _ _ _ hmin]
  rw [show enrich (pstrip twoSentPara) "Historia" "General"
      = ("[" ++ "Historia" ++ "]") ++ " " ++ twoSentPara by
    rw [twoSentPara_pstrip]
    exact enrich_sg twoSentPara (by decide) twoSentPara_pstrip
      twoSentPara_ne_empty]
  rfl


/-! ### Claim theorems -/

/-- Claim C1 (counterexample): on `prefixOverflowPages` the single chunk that
`split_into_chunks` emits stores 806 characters, beyond
`MAX_CHUNK_CHARS = 800`, although its text is not a single indivisible
sentence (the sentence splitter finds a boundary inside it): the
`"[Historia] "` context prefix pushes the stored text past the ceiling. -/
theorem size_ceiling_cex :
    (split_into_chunks prefixOverflowPages).map
        (fun c => (c.text.length, single_sentence c.text))
      = [(806, false)] ∧ MAX_CHUNK_CHARS < 806 := by
  constructor
  · rw [prefix_overflow_eval, List.map_cons, List.map_nil]
    have hlen : (("[" ++ "Historia" ++ "]") ++ " " ++ twoSentPara).length
        = 806 := by
      rw [length_append3, twoSentPara_length]
      rfl
    have hdata : (("[" ++ "Historia" ++ "]") ++ " " ++ twoSentPara).data
        = ('[' :: ("Historia".data ++ [']']) ++ ' ' :: 'a'
            :: List.replicate 399 'a')
          ++ '.' :: ' ' :: (List.replicate 392 'b' ++ ['b']) := by
      rw [sep_data, bracket_data]
      show _ ++ ' ' :: twoSentL = _
      simp only [twoSentL, List.cons_append, List.append_assoc]
    have hsingle :
        single_sentence (("[" ++ "Historia" ++ "]") ++ " " ++ twoSentPara)
          = false := by
      unfold single_sentence
      rw [hdata, noSplit_false_mid]
    rw [hlen, hsingle]
  · decide

/-- Claim C1 (amended): every chunk emitted by `split_into_chunks` stores the
enrichment of a raw candidate text by its section/trimester context prefix,
and that raw candidate has length at most `MAX_CHUNK_CHARS` unless it is a
single indivisible sentence longer than the ceiling; the stored text itself
may exceed the ceiling only by the length of the context prefix. -/
theorem size_ceiling_soft (pages : List PageText) :
    ∀ c ∈ split_into_chunks pages, ∃ raw : String,
      c.text = enrich raw c.sectionName c.trimester ∧
      (raw.length ≤ MAX_CHUNK_CHARS ∨
        (MAX_CHUNK_CHARS < raw.length ∧ single_sentence raw = true)) :=
  fun c hc => (split_into_chunks_ok pages c hc).2.2

/-- Witness for `size_ceiling_soft` at a concrete emitted chunk. -/
theorem size_ceiling_soft_witness :
    (⟨"[Matemáticas] [2.º trimestre] Contenido de algebra con longitud suficiente.",
        "Matemáticas", "2.º trimestre", 1⟩ : Chunk)
      ∈ split_into_chunks headingThenMarkerPages ∧
    ∃ raw : String,
      ("[Matemáticas] [2.º trimestre] Contenido de algebra con longitud suficiente." : String)
        = enrich raw "Matemáticas" "2.º trimestre" ∧
      (raw.length ≤ MAX_CHUNK_CHARS ∨
        (MAX_CHUNK_CHARS < raw.length ∧ single_sentence raw = true)) :=
  ⟨by decide, size_ceiling_soft headingThenMarkerPages
    ⟨"[Matemáticas] [2.º trimestre] Contenido de algebra con longitud suficiente.",
      "Matemáticas", "2.º trimestre", 1⟩ (by decide)⟩

/-- Claim C2 (counterexample): in `headingThenMarkerPages` the heading line
changes the section to "Matemáticas", yet the first chunk emitted after that
section change carries period "2.º trimestre" rather than "General", because
the first processed paragraph begins with an inline trimester marker. -/
theorem period_reset_cex :
    is_heading "Matemáticas" = true ∧
    (split_into_chunks headingThenMarkerPages).map (fun c => c.trimester)
      = ["2.º trimestre"] :=
  ⟨by decide, by decide⟩

/-- Claim C2 (amended): processing a heading line resets the accumulator's
current trimester to "General" and sets the current section to the heading
text; the first chunk emitted after a section change therefore has period
"General" unless an inline trimester marker occurs before that chunk. -/
theorem period_reset_state (page : Nat) (st : AccState) (pb line : String)
    (h1 : pstrip line ≠ "") (h2 : is_heading (pstrip line) = true) :
    (handle_line page st pb line).1.current_trimester = "General" ∧
    (handle_line page st pb line).1.current_section = pstrip line := by
  simp only [handle_line]
  rw [if_neg h1, if_pos h2]
  by_cases hpb : pstrip pb ≠ ""
  · rw [if_pos hpb]
    exact ⟨rfl, rfl⟩
  · rw [if_neg hpb]
    exact ⟨rfl, rfl⟩

/-- Witness for `period_reset_state` at a concrete heading line. -/
theorem period_reset_state_witness :
    pstrip "Historia" ≠ "" ∧ is_heading (pstrip "Historia") = true ∧
    ((handle_line 1 initAcc "" "Historia").1.current_trimester = "General" ∧
      (handle_line 1 initAcc "" "Historia").1.current_section
        = pstrip "Historia") :=
  ⟨by decide, by decide,
    period_reset_state 1 initAcc "" "Historia" (by decide) (by decide)⟩

/-- Claim C3 (counterexample): on the input of the spec's Example 1,
`split_into_chunks` does not emit two chunks: it emits none. -/
theorem example1_cex : (split_into_chunks examplePages).length ≠ 2 := by
  decide

/-- Claim C3 (amended): on the input of the spec's Example 1 with
`MAX_CHUNK_CHARS = 800` and `MIN_CHUNK_CHARS = 20`, `split_into_chunks`
emits zero chunks: both candidate texts ("Números enteros.", 16 characters,
and "Álgebra básica.", 15 characters) are shorter than `MIN_CHUNK_CHARS`
and are silently discarded. -/
theorem example1_amended : split_into_chunks examplePages = [] := by
  decide

/-- Claim C4: every chunk emitted by `split_into_chunks` stores text of
length at least `MIN_CHUNK_CHARS`, and a candidate whose trimmed text is
shorter than `MIN_CHUNK_CHARS` is silently discarded by the flush (no chunk
is produced and no error is raised — the flush is a total function
returning the empty list). -/
theorem size_floor_holds :
    (∀ pages : List PageText, ∀ c ∈ split_into_chunks pages,
      MIN_CHUNK_CHARS ≤ c.text.length) ∧
    (∀ (text sec tri : String) (page : Nat),
      (pstrip text).length < MIN_CHUNK_CHARS →
      flush_chunk text sec tri page = []) :=
  ⟨fun pages c hc => (split_into_chunks_ok pages c hc).1,
   fun _ sec tri page h => flush_chunk_of_short sec tri page h⟩

/-- Witness for `size_floor_holds`: a concrete emitted chunk respects the
floor, and a five-character candidate is discarded. -/
theorem size_floor_holds_witness :
    MIN_CHUNK_CHARS ≤
      ("[Matemáticas] [2.º trimestre] Contenido de algebra con longitud suficiente." : String).length ∧
    ((pstrip "corto").length < MIN_CHUNK_CHARS ∧
      flush_chunk "corto" "General" "General" 1 = []) :=
  ⟨size_floor_holds.1 headingThenMarkerPages
    ⟨"[Matemáticas] [2.º trimestre] Contenido de algebra con longitud suficiente.",
      "Matemáticas", "2.º trimestre", 1⟩ (by decide),
   by decide,
   size_floor_holds.2 "corto" "General" "General" 1 (by decide)⟩

/-- Claim C5: a sentence of the input whose length alone exceeds `max_chars`
is emitted by `split_by_sentences` as its own fragment, unmodified; in
particular a 1000-character paragraph with no sentence boundary and
`max_chars = 800` yields exactly one fragment of 1000 characters. -/
theorem oversized_sentence_kept :
    (∀ (text : String) (max_chars : Nat) (s : String),
        s ∈ sentencesOf text → max_chars < s.length →
        s ∈ split_by_sentences text max_chars) ∧
      split_by_sentences bigPara 800 = [bigPara] := by
  constructor
  · intro text m s hs hm
    exact sbs_oversized hs hm
  · apply sbs_single
    · exact @pstrip_repl 'a' 1000 (by decide)
    · exact @repl_noSplit 'a' 1000 (by decide)
    · show 800 < (String.mk (List.replicate 1000 'a')).length
      rw [repl_length]
      decide

/-- Witness for `oversized_sentence_kept` at a concrete oversized
sentence. -/
theorem oversized_sentence_kept_witness :
    "abcdefg." ∈ sentencesOf "abcdefg." ∧
    5 < ("abcdefg." : String).length ∧
    "abcdefg." ∈ split_by_sentences "abcdefg." 5 :=
  ⟨by decide, by decide,
    oversized_sentence_kept.1 "abcdefg." 5 "abcdefg." (by decide) (by decide)⟩

/-- Claim C6: `split_into_chunks` is a total function of its input — it
terminates on every well-formed page sequence and returns a (possibly
empty) chunk list, with a defined fallback on every branch: the empty input
yields the empty output, and a 900-character single-sentence paragraph
(an oversized paragraph that is also an oversized sentence) is emitted as
one chunk rather than raising an error. -/
theorem chunking_total :
    (∀ pages : List PageText, ∃ cs : List Chunk,
      split_into_chunks pages = cs) ∧
    split_into_chunks [] = [] ∧
    split_into_chunks oversizedPages
      = [⟨String.mk (List.replicate 900 'a'), "General", "General", 1⟩] :=
  ⟨fun pages => ⟨split_into_chunks pages, rfl⟩, by decide,
    oversized_pages_eval⟩

/-- Claim C7: a marker-free paragraph that makes the pending buffer reach
`MAX_CHUNK_CHARS` exactly (buffer, two-character blank-line join, and
paragraph) is appended to the buffer and no chunk is flushed: the `==`
boundary counts as fitting. -/
theorem exact_fit_appends (para t sec tri : String) (page : Nat)
    (cc : String) (hsplit : split_by_trimesters para = [("General", t)])
    (_hne : cc ≠ "") (hlen : cc.length + 2 + t.length = MAX_CHUNK_CHARS) :
    process_paragraph para sec tri page cc
      = ([], pstrip (cc ++ "\n\n" ++ t), tri) := by
  have hg : isGeneralSingleton (split_by_trimesters para) = some t := by
    rw [hsplit]
    simp [isGeneralSingleton]
  rw [pp_general hg]
  rw [if_pos (by omega)]

/-- Witness for `exact_fit_appends`: a 398-character buffer and a
400-character paragraph meet the 800-character ceiling exactly. -/
theorem exact_fit_appends_witness :
    split_by_trimesters (String.mk (List.replicate 400 'a'))
      = [("General", String.mk (List.replicate 400 'a'))] ∧
    String.mk (List.replicate 398 'b') ≠ "" ∧
    (String.mk (List.replicate 398 'b')).length + 2
      + (String.mk (List.replicate 400 'a')).length = MAX_CHUNK_CHARS ∧
    process_paragraph (String.mk (List.replicate 400 'a')) "General"
        "General" 1 (String.mk (List.replicate 398 'b'))
      = ([], pstrip (String.mk (List.replicate 398 'b') ++ "\n\n"
          ++ String.mk (List.replicate 400 'a')), "General") := by
  have h1 : split_by_trimesters (String.mk (List.replicate 400 'a'))
      = [("General", String.mk (List.replicate 400 'a'))] := by
    rw [split_by_trimesters_no_digit (@repl_no_digit 'a' 400 (by decide))]
    rw [@pstrip_repl 'a' 400 (by decide)]
  have h2 : String.mk (List.replicate 398 'b') ≠ "" :=
    repl_ne_empty 398 'b' (by decide)
  have h3 : (String.mk (List.replicate 398 'b')).length + 2
      + (String.mk (List.replicate 400 'a')).length = MAX_CHUNK_CHARS := by
    rw [repl_length, repl_length]
    decide
  exact ⟨h1, h2, h3,
    exact_fit_appends (String.mk (List.replicate 400 'a'))
      (String.mk (List.replicate 400 'a')) "General" "General" 1
      (String.mk (List.replicate 398 'b')) h1 h2 h3⟩

/-- Claim C8: when the trimmed candidate text reaches `MIN_CHUNK_CHARS`,
the flushed chunk stores the trimmed candidate prefixed by "[section]" when
the section is not "General" and by "[trimester]" when the trimester is not
"General" (space-separated, omitted entirely when both are "General"), and
the threshold is evaluated on the trimmed text before the prefix is
added. -/
theorem flush_enrich_format (text sec tri : String) (page : Nat)
    (h : MIN_CHUNK_CHARS ≤ (pstrip text).length) :
    flush_chunk text sec tri page =
      [⟨if sec = "General" then
          (if tri = "General" then pstrip text
           else ("[" ++ tri ++ "]") ++ " " ++ pstrip text)
        else
          (if tri = "General" then ("[" ++ sec ++ "]") ++ " " ++ pstrip text
           else ("[" ++ sec ++ "]" ++ " [" ++ tri ++ "]") ++ " "
             ++ pstrip text),
        sec, tri, page⟩] := by
  rw [flush_chunk_of_ge sec tri page h]
  have ht := pstrip_idem text
  have hne : pstrip text ≠ "" :=
    ne_empty_of_pos (Nat.lt_of_lt_of_le (by decide) h)
  by_cases hs : sec = "General" <;> by_cases htr : tri = "General"
  · rw [hs, htr, if_pos rfl, if_pos rfl, enrich_gg]
  · rw [hs, if_pos rfl, if_neg htr, enrich_gt _ htr ht hne]
  · rw [htr, if_neg hs, if_pos rfl, enrich_sg _ hs ht hne]
  · rw [if_neg hs, if_neg htr, enrich_st _ hs htr ht hne]

/-- Witness for `flush_enrich_format` at a concrete candidate with both
context markers present. -/
theorem flush_enrich_format_witness :
    MIN_CHUNK_CHARS ≤ (pstrip "  hola esto es contenido  ").length ∧
    flush_chunk "  hola esto es contenido  " "Historia" "1.º trimestre" 3
      = [⟨"[Historia] [1.º trimestre] hola esto es contenido",
          "Historia", "1.º trimestre", 3⟩] :=
  ⟨by decide, by
    rw [flush_enrich_format "  hola esto es contenido  " "Historia"
      "1.º trimestre" 3 (by decide)]
    decide⟩

/-- Claim C9: the trimester field of every chunk emitted by
`split_into_chunks` is either "General" or of the exact normalized form
"<digit>.º trimestre", and the accumulator's current-trimester state keeps
that shape through the whole run. -/
theorem trimester_shape_holds (pages : List PageText) :
    (∀ c ∈ split_into_chunks pages, triShape c.trimester = true) ∧
    triShape (runPages pages).current_trimester = true :=
  ⟨fun c hc => (split_into_chunks_ok pages c hc).2.1,
   (runPages_inv pages).2.2⟩

/-- Witness for `trimester_shape_holds` at a concrete run whose chunk and
final state carry the label "2.º trimestre". -/
theorem trimester_shape_holds_witness :
    triShape ("2.º trimestre" : String) = true ∧
    triShape (runPages headingThenMarkerPages).current_trimester = true :=
  ⟨(trimester_shape_holds headingThenMarkerPages).1
    ⟨"[Matemáticas] [2.º trimestre] Contenido de algebra con longitud suficiente.",
      "Matemáticas", "2.º trimestre", 1⟩ (by decide),
   (trimester_shape_holds headingThenMarkerPages).2⟩

/-- Claim C10: on the empty page sequence `split_into_chunks` returns the
empty chunk sequence, and the final end-of-run flush of the empty pending
buffer emits nothing whatever the section, trimester and page are. -/
theorem empty_run_empty :
    split_into_chunks [] = [] ∧
    ∀ (sec tri : String) (page : Nat), flush_chunk "" sec tri page = [] :=
  ⟨by decide, fun sec tri page => flush_chunk_empty sec tri page⟩
